import Mathlib

/-!
# Wozify-CV-Parser: formal model and verification

A shallow embedding of the Wozify CV parser.  Character strings are modelled
as `List Char` so that the JavaScript string operations used by the frontend
(`split`, `trim`, `join`) become structurally recursive Lean functions.

The frontend form logic is translated from `src/frontend/script.js` and the
live-preview script (`populateFields`, `fetchHtmlTemplate`, `getFormData`).
The backend section-classification pipeline (TextSegmenter, SectionClassifier,
SectionGrouper, FieldExtractors, RecordAssembler) is not present in the
repository sources; those components are modelled from the specification and
are marked `Modelled from the spec:` in their doc comments.

Layout: all definitions come first, then all lemmas and theorems.
-/

set_option autoImplicit false

namespace Wozify

/-! ## Strings -/

/-- Character strings, modelled as lists of characters. -/
abbrev Str := List Char

/-- Coerce a Lean string literal to the `Str` model. -/
def str (s : String) : Str := s.toList

/-- JavaScript `String.prototype.trim`: remove whitespace from both ends. -/
def trim (s : Str) : Str :=
  ((s.dropWhile Char.isWhitespace).reverse.dropWhile Char.isWhitespace).reverse

/-- JavaScript `String.prototype.split` with a one-character separator:
`"a,b".split(",")` is `["a", "b"]`, `"".split(",")` is `[""]`. -/
def splitOnChar (c : Char) : Str → List Str
  | [] => [[]]
  | a :: rest =>
    match splitOnChar c rest with
    | [] => [[a]]
    | g :: gs => if a = c then [] :: g :: gs else (a :: g) :: gs

/-- JavaScript `Array.prototype.join` with a separator string. -/
def jsJoin (sep : Str) : List Str → Str
  | [] => []
  | [x] => x
  | x :: y :: ys => x ++ sep ++ jsJoin sep (y :: ys)

/-! ## Frontend: form data and preview (from `src/frontend/script.js` and the
live-preview script) -/

/-- The skills list read back from the form, from `getFormData`
(`src/frontend/script.js` lines 74-78):
`value.split(",").map(s => s.trim()).filter(s => s !== "")`. -/
def getFormDataSkills (v : Str) : List Str :=
  ((splitOnChar ',' v).map trim).filter (fun s => s ≠ [])

/-- The skills form field written by `populateFields` (live-preview script
lines 334-336): an array value is joined with `", "`. -/
def populateFieldsSkillsValue (skills : List Str) : Str :=
  jsJoin (str ", ") skills

/-- The detected-language value set by `populateFields` (live-preview script
line 316): `data.language || 'en'`; an absent or empty string is falsy. -/
def populateFieldsLanguage (lang : Option Str) : Str :=
  match lang with
  | none => str "en"
  | some s => if s = [] then str "en" else s

/-- Template choice of `fetchHtmlTemplate` (live-preview script line 10):
`language === 'hu' ? 'live_preview_hu.html' : 'live_preview.html'`. -/
def templateFileFor (language : Str) : Str :=
  if language = str "hu" then str "live_preview_hu.html" else str "live_preview.html"

/-- Result of `fetchHtmlTemplate` (live-preview script lines 9-20), with the
fetch outcome abstracted as a success predicate on file names.  On a failed
fetch the catch handler retries once with `'en'` when the requested language
was `'hu'`; a failed English fetch delivers nothing. -/
def fetchHtmlTemplateResult (fetchOk : Str → Bool) (language : Str) : Option Str :=
  if fetchOk (templateFileFor language) then some (templateFileFor language)
  else if language = str "hu" then
    if fetchOk (templateFileFor (str "en")) then some (templateFileFor (str "en"))
    else none
  else none

/-! ## Backend data model

The backend pipeline sources are not part of the repository snapshot; the
following components are modelled from the specification. -/

/-- Modelled from the spec: the closed Section-Label set. -/
inductive Label
  | profile
  | education
  | experience
  | skills
  | languages
  | other
deriving DecidableEq, Repr

/-- Modelled from the spec: a LabeledBlock - position, text, assigned section
label, and classifier confidence. -/
structure LBlock where
  index : Nat
  text : Str
  label : Label
  conf : ℚ
deriving DecidableEq, Repr

/-- Relabel a block, keeping position, text and confidence. -/
def relabel (L : Label) (b : LBlock) : LBlock := { b with label := L }

/-- The label-free content of a block, used to state that grouping only
reassigns labels. -/
def blockContent (b : LBlock) : Nat × Str × ℚ := (b.index, b.text, b.conf)

/-- Modelled from the spec: step 1 of SectionGrouper - walk the labeled blocks
left to right and start a new run whenever the label changes. -/
def chunkRuns : List LBlock → List (List LBlock)
  | [] => []
  | [b] => [[b]]
  | a :: b :: rest =>
    match chunkRuns (b :: rest) with
    | [] => [[a]]
    | g :: gs => if a.label = b.label then (a :: g) :: gs else [a] :: g :: gs

/-- The label of a run (the label of its first block). -/
def runLabel : List LBlock → Option Label
  | [] => none
  | b :: _ => some b.label

/-- The label of the first run of a run list. -/
def headRunLabel : List (List LBlock) → Option Label
  | [] => none
  | g :: _ => runLabel g

/-- Modelled from the spec: step 2 of SectionGrouper on one run - a run that is
a single block with confidence below the threshold is noise; its label is
reassigned to the common label of the immediate left and right neighboring
runs when they agree.  When they disagree, or a neighbor is missing, the
original low-confidence label is kept (the tie-break rule of section 4.3
step 4 and the tie-break testable property of section 8; a competing spec
sentence suggests OTHER instead, which is not modelled here). -/
def smoothRun (thr : ℚ) (left right : Option Label) : List LBlock → List LBlock
  | [b] =>
    if b.conf < thr then
      match left, right with
      | some L, some R => if L = R then [relabel L b] else [b]
      | _, _ => [b]
    else [b]
  | g => g

/-- Modelled from the spec: the smoothing pass - applied once over the run
list, left to right, each run seeing the original labels of its neighbors. -/
def smoothRuns (thr : ℚ) (left : Option Label) : List (List LBlock) → List (List LBlock)
  | [] => []
  | g :: gs => smoothRun thr left (headRunLabel gs) g :: smoothRuns thr (runLabel g) gs

/-- Modelled from the spec: a SectionSpan - label, inclusive start and end
indices, and the ordered blocks of the span. -/
structure SectionSpan where
  label : Label
  start_index : Nat
  end_index : Nat
  blocks : List LBlock
deriving DecidableEq, Repr

/-- Build a SectionSpan from a nonempty run. -/
def mkSpan (g : List LBlock) : SectionSpan where
  label := match g with | [] => Label.other | b :: _ => b.label
  start_index := match g with | [] => 0 | b :: _ => b.index
  end_index := match g.getLast? with | none => 0 | some b => b.index
  blocks := g

/-- Modelled from the spec: SectionGrouper.group - partition into label runs,
smooth single-block noise once, then re-run the partition pass so that
adjacent runs that now share a label merge. -/
def group (thr : ℚ) (bs : List LBlock) : List SectionSpan :=
  (chunkRuns ((smoothRuns thr none (chunkRuns bs)).flatten)).map mkSpan

/-! ## Backend: text segmentation (modelled from the spec) -/

/-- Maximal runs of elements not satisfying `p`; separators are dropped and
empty runs discarded (recursive core). -/
def groupSplitCore {α : Type} (p : α → Bool) : List α → List (List α)
  | [] => []
  | a :: as =>
    if p a then [] :: groupSplitCore p as
    else
      match groupSplitCore p as with
      | [] => [[a]]
      | g :: gs => (a :: g) :: gs

/-- Maximal runs of elements not satisfying `p`, with empty runs removed. -/
def groupSplit {α : Type} (p : α → Bool) (xs : List α) : List (List α) :=
  (groupSplitCore p xs).filter (fun g => !g.isEmpty)

/-- A line is blank when it is empty after trimming. -/
def isBlank (l : Str) : Bool := (trim l).isEmpty

/-- Modelled from the spec: paragraphs are maximal runs of non-blank lines. -/
def paragraphsOf (ls : List Str) : List (List Str) := groupSplit isBlank ls

/-- Join lines with a newline character. -/
def joinLines (p : List Str) : Str := jsJoin ['\n'] p

/-- Modelled from the spec: block texts of one paragraph - an oversized
paragraph falls back to one block per line, otherwise the paragraph is a
single block. -/
def blocksOfPara (K : Nat) (p : List Str) : List Str :=
  if K < (joinLines p).length then p else [joinLines p]

/-- Modelled from the spec: TextSegmenter.segment - split on blank-line
paragraph boundaries, fall back to line breaks inside oversized paragraphs,
drop blocks that are empty after trimming. -/
def segment (K : Nat) (raw : Str) : List Str :=
  (((paragraphsOf (splitOnChar '\n' raw)).map (blocksOfPara K)).flatten).filter
    (fun b => trim b ≠ [])

/-! ## Backend: field extractors (modelled from the spec) -/

/-- Whitespace-separated tokens. -/
def wordsOf (s : Str) : List Str := groupSplit Char.isWhitespace s

/-- Modelled from the spec: an email token is `local@domain` with nonempty
local part and domain. -/
def isEmailToken (t : Str) : Bool :=
  match splitOnChar '@' t with
  | [a, b] => !a.isEmpty && !b.isEmpty
  | _ => false

def findEmail (s : Str) : Option Str := (wordsOf s).find? isEmailToken

/-- Separator characters allowed inside a phone token. -/
def phoneSeparators : List Char := ['+', '-', '(', ')', '/', '.']

/-- Modelled from the spec: a phone token is a digit run of 8-13 digits with
optional separators. -/
def isPhoneToken (t : Str) : Bool :=
  decide (8 ≤ (t.filter Char.isDigit).length) &&
  decide ((t.filter Char.isDigit).length ≤ 13) &&
  t.all (fun c => c.isDigit || decide (c ∈ phoneSeparators))

def findPhone (s : Str) : Option Str := (wordsOf s).find? isPhoneToken

/-- Modelled from the spec: a URL token. -/
def isUrlToken (t : Str) : Bool :=
  (str "http").isPrefixOf t || (str "www.").isPrefixOf t

def findUrl (s : Str) : Option Str := (wordsOf s).find? isUrlToken

/-- Modelled from the spec: named-entity recognition for the most likely
person name - the first short, purely alphabetic line. -/
def nerName (s : Str) : Option Str :=
  ((splitOnChar '\n' s).map trim).find?
    (fun l => !l.isEmpty && decide ((wordsOf l).length ≤ 3) &&
      l.all (fun c => c.isAlpha || c.isWhitespace))

/-- Modelled from the spec: named-entity recognition for the most likely
location - the first trimmed line containing a comma and only alphabetic
content otherwise. -/
def nerLocation (s : Str) : Option Str :=
  ((splitOnChar '\n' s).map trim).find?
    (fun l => decide (',' ∈ l) &&
      l.all (fun c => c.isAlpha || c.isWhitespace || decide (c = ',')))

/-- The profile object of the canonical record. -/
structure ProfileR where
  name : Str
  email : Str
  phone : Str
  location : Str
  url : Str
  summary : Str
deriving DecidableEq, Repr

/-- A profile line matched by one of the token patterns. -/
def profileMatchedLine (l : Str) : Bool :=
  (wordsOf l).any (fun t => isEmailToken t || isPhoneToken t || isUrlToken t)

/-- Modelled from the spec: the Profile extractor - email, phone and URL by
pattern, name and location by entity recognition, and the summary is the
remaining free text excluding matched lines. -/
def extractProfile (s : Str) : ProfileR where
  name := (nerName s).getD []
  email := (findEmail s).getD []
  phone := (findPhone s).getD []
  location := (nerLocation s).getD []
  url := (findUrl s).getD []
  summary := trim (joinLines ((splitOnChar '\n' s).filter
    (fun l => !isBlank l && !profileMatchedLine l &&
      decide (some (trim l) ≠ nerName s) && decide (some (trim l) ≠ nerLocation s))))

/-- Four consecutive digits somewhere in the string (a year-like token). -/
def hasFourDigitRun : Str → Bool
  | c1 :: c2 :: c3 :: c4 :: rest =>
    (c1.isDigit && c2.isDigit && c3.isDigit && c4.isDigit) ||
      hasFourDigitRun (c2 :: c3 :: c4 :: rest)
  | _ => false

/-- `pat` occurs as a contiguous substring of `s`. -/
def hasSubstr (pat : Str) : Str → Bool
  | [] => pat.isEmpty
  | a :: rest => pat.isPrefixOf (a :: rest) || hasSubstr pat rest

/-- Modelled from the spec: a date-range-like line. -/
def isDateLine (l : Str) : Bool := hasFourDigitRun l

/-- Modelled from the spec: known institution cues. -/
def institutionCues : List Str :=
  [str "University", str "College", str "School", str "Egyetem", str "Iskola"]

def isSchoolLine (l : Str) : Bool := institutionCues.any (fun c => hasSubstr c l)

/-- Modelled from the spec: degree cue words. -/
def degreeCues : List Str :=
  [str "B.Sc", str "M.Sc", str "BSc", str "MSc", str "Bachelor", str "Master", str "PhD"]

def isDegreeLine (l : Str) : Bool := degreeCues.any (fun c => hasSubstr c l)

/-- Modelled from the spec: entry splitting - a new entry starts when a
date-range-like token or an institution cue appears. -/
def splitEntries (isBoundary : Str → Bool) (ls : List Str) : List (List Str) :=
  (ls.foldr (fun l acc =>
    match acc with
    | [] => [[l]]
    | g :: gs => if isBoundary l then [] :: (l :: g) :: gs else (l :: g) :: gs) []).filter
    (fun g => g ≠ [])

/-- A GPA token: digits and dots, starting with a digit bounded by 5. -/
def isGpaToken (t : Str) : Bool :=
  match t with
  | c :: rest =>
    c.isDigit && decide (c ≤ '5') && rest.all (fun d => d.isDigit || decide (d = '.'))
  | [] => false

def findGpa (ls : List Str) : Option Str :=
  (ls.find? (fun l => hasSubstr (str "GPA") l)).bind
    (fun l => (wordsOf l).find? isGpaToken)

def findDateToken (ls : List Str) : Option Str :=
  ((ls.map wordsOf).flatten).find? hasFourDigitRun

/-- An education entry of the canonical record. -/
structure EduEntry where
  school : Str
  degree : Str
  gpa : Str
  date : Str
  descriptions : List Str
deriving DecidableEq, Repr

/-- Modelled from the spec: one education entry - school and degree by cue,
GPA by bounded numeric pattern, date by date-like token, leftover lines as
descriptions; unparsed fields stay empty. -/
def extractEduEntry (entry : List Str) : EduEntry :=
  let lines := (entry.map trim).filter (fun l => l ≠ [])
  { school := (lines.find? isSchoolLine).getD []
    degree := (lines.find? isDegreeLine).getD []
    gpa := (findGpa lines).getD []
    date := (findDateToken lines).getD []
    descriptions := lines.filter (fun l =>
      !isSchoolLine l && !isDegreeLine l && !isDateLine l && !hasSubstr (str "GPA") l) }

/-- Modelled from the spec: the Education extractor. -/
def extractEducation (s : Str) : List EduEntry :=
  (splitEntries (fun l => isDateLine l || isSchoolLine l) (splitOnChar '\n' s)).map
    extractEduEntry

/-- A work-experience entry of the canonical record. -/
structure ExpEntry where
  company : Str
  job_title : Str
  date : Str
  descriptions : List Str
deriving DecidableEq, Repr

/-- Modelled from the spec: one experience entry - split keyed on date-range
lines; company and job title from the header lines, descriptions from the
non-empty trimmed lines after the header. -/
def extractExpEntry (entry : List Str) : ExpEntry :=
  let lines := (entry.map trim).filter (fun l => l ≠ [])
  let header := lines.filter (fun l => !isDateLine l)
  { company := header.headD []
    job_title := (header.drop 1).headD []
    date := (findDateToken lines).getD []
    descriptions := header.drop 2 }

/-- Modelled from the spec: the Experience extractor. -/
def extractExperience (s : Str) : List ExpEntry :=
  (splitEntries isDateLine (splitOnChar '\n' s)).map extractExpEntry

/-- Lower-case a string. -/
def lowerStr (s : Str) : Str := s.map Char.toLower

/-- Case-insensitive de-duplication that preserves first-seen casing and
insertion order. -/
def dedupCIAux (seen : List Str) : List Str → List Str
  | [] => []
  | x :: xs =>
    if lowerStr x ∈ seen then dedupCIAux seen xs
    else x :: dedupCIAux (lowerStr x :: seen) xs

/-- Modelled from the spec: Skills delimiter characters. -/
def skillDelims : List Char := [',', ';', '•', '\n']

/-- Modelled from the spec: the Skills extractor - split on delimiters, trim,
drop empties, de-duplicate case-insensitively keeping first-seen casing. -/
def extractSkills (s : Str) : List Str :=
  dedupCIAux []
    (((groupSplit (fun c => decide (c ∈ skillDelims)) s).map trim).filter (fun x => x ≠ []))

/-- A language entry of the canonical record. -/
structure LangEntry where
  language : Str
  proficiency : Str
deriving DecidableEq, Repr

/-- Modelled from the spec: the proficiency normalization vocabulary;
unrecognized values pass through verbatim. -/
def profVocab : List (Str × Str) :=
  [(str "native", str "Native"), (str "fluent", str "Fluent"),
   (str "intermediate", str "Intermediate"), (str "basic", str "Basic"),
   (str "anyanyelv", str "Native"), (str "folyékony", str "Fluent"),
   (str "középszint", str "Intermediate"), (str "alapszint", str "Basic")]

def normalizeProficiency (p : Str) : Str :=
  match profVocab.find? (fun kv => kv.1 = lowerStr p) with
  | some kv => kv.2
  | none => p

/-- Modelled from the spec: a language piece, `name - proficiency` or
`name (proficiency)`; anything else is omitted rather than failing. -/
def parseLangPiece (l : Str) : Option LangEntry :=
  match splitOnChar '-' l with
  | [a, b] => some ⟨trim a, normalizeProficiency (trim b)⟩
  | _ =>
    match splitOnChar '(' l with
    | [a, b] =>
      some ⟨trim a, normalizeProficiency (trim (b.filter (fun c => c ≠ ')')))⟩
    | _ => none

/-- Modelled from the spec: the Languages extractor. -/
def extractLanguages (s : Str) : List LangEntry :=
  ((groupSplit (fun c => decide (c = ',' ∨ c = '\n')) s).map trim).filterMap parseLangPiece

/-! ## Backend: canonical record and pipeline (modelled from the spec) -/

/-- The document language tag. -/
inductive DocLang
  | en
  | hu
deriving DecidableEq, Repr

/-- The Canonical CV Record. -/
structure CanonicalRecord where
  profile : ProfileR
  current_position : Str
  skills : List Str
  education : List EduEntry
  experience : List ExpEntry
  languages : List LangEntry
  detected_language : DocLang
deriving DecidableEq, Repr

/-- Modelled from the spec: the classifier capability interface - block text to
(label, confidence), selected by the language tag. -/
abbrev Classifier := DocLang → Str → Label × ℚ

/-- The raw text of a span. -/
def spanText (sp : SectionSpan) : Str := joinLines (sp.blocks.map (fun b => b.text))

/-- The spans carrying one section label, in document order. -/
def spansWith (l : Label) (spans : List SectionSpan) : List SectionSpan :=
  spans.filter (fun sp => sp.label = l)

/-- Modelled from the spec: RecordAssembler.assemble - schema defaults for
labels with no span; multiple PROFILE spans are concatenated before one
Profile extraction; the other sections keep every span's extracted entries in
document order.  The spec assigns no extractor to `current_position`, so it
stays at its schema default. -/
def assemble (lang : DocLang) (spans : List SectionSpan) : CanonicalRecord where
  profile := extractProfile (joinLines ((spansWith Label.profile spans).map spanText))
  current_position := []
  skills := ((spansWith Label.skills spans).map (fun sp => extractSkills (spanText sp))).flatten
  education :=
    ((spansWith Label.education spans).map (fun sp => extractEducation (spanText sp))).flatten
  experience :=
    ((spansWith Label.experience spans).map (fun sp => extractExperience (spanText sp))).flatten
  languages :=
    ((spansWith Label.languages spans).map (fun sp => extractLanguages (spanText sp))).flatten
  detected_language := lang

/-- Modelled from the spec: the oversized-paragraph threshold of the segmenter
(a tunable; the stated properties hold for every value). -/
def oversizeLimit : Nat := 400

/-- Modelled from the spec: the default smoothing confidence threshold. -/
def defaultThreshold : ℚ := 1/2

/-- Modelled from the spec: the full pipeline - segmentation, block-local
classification, grouping with smoothing, extraction, assembly; a pure function
of (raw text, language) given the injected classifier. -/
def runPipeline (cls : Classifier) (raw : Str) (lang : DocLang) : CanonicalRecord :=
  let texts := segment oversizeLimit raw
  let lblocks := texts.enum.map (fun p =>
    { index := p.1, text := p.2,
      label := (cls lang p.2).1, conf := (cls lang p.2).2 : LBlock })
  assemble lang (group defaultThreshold lblocks)

/-- Modelled from the spec: batch processing - documents are processed one
after another with no state carried between them. -/
def processAll (cls : Classifier) : List (Str × DocLang) → List CanonicalRecord
  | [] => []
  | d :: ds => runPipeline cls d.1 d.2 :: processAll cls ds

/-- Modelled from the spec: the startup contract - the classifier model is the
only process-wide resource; a missing model is the only unrecoverable error,
and every per-document call returns a record. -/
def loadedPipelineE (model : Option Classifier) (raw : Str) (lang : DocLang) :
    Except Str CanonicalRecord :=
  match model with
  | none => Except.error (str "classifier model missing")
  | some cls => Except.ok (runPipeline cls raw lang)

/-- A constant classifier, used as a concrete model instance. -/
def constClassifier : Classifier := fun _ _ => (Label.other, 1)

/-- The non-blank lines of a text, the observation used to state that the
segmenter preserves content and order. -/
def nonBlankLines (b : Str) : List Str :=
  (splitOnChar '\n' b).filter (fun l => !isBlank l)

/-- A confidently classified education block at position `i`. -/
def eduBlock (i : Nat) : LBlock := ⟨i, str "edu", Label.education, 9/10⟩

/-- A confidently classified experience block at position `i`. -/
def expBlock (i : Nat) : LBlock := ⟨i, str "exp", Label.experience, 9/10⟩

/-- A low-confidence skills block (confidence 0.3) at position 2. -/
def skillsBlock03 : LBlock := ⟨2, str "skills", Label.skills, 3/10⟩

/-- A low-confidence skills block (confidence 0.2) at position 1. -/
def skillsBlock02 : LBlock := ⟨1, str "skills", Label.skills, 1/5⟩

/-! ## Lemmas about the string model -/

theorem splitOnChar_ne_nil (c : Char) (s : Str) : splitOnChar c s ≠ [] := by
  cases s with
  | nil => simp [splitOnChar]
  | cons a rest =>
    simp only [splitOnChar]
    cases h : splitOnChar c rest with
    | nil => simp
    | cons g gs =>
      by_cases hac : a = c <;> simp [hac]

theorem splitOnChar_not_mem {c : Char} {s : Str} (h : c ∉ s) :
    splitOnChar c s = [s] := by
  induction s with
  | nil => rfl
  | cons a rest ih =>
    have hac : a ≠ c := fun hh => h (hh ▸ List.mem_cons_self a rest)
    have hrest : c ∉ rest := fun hh => h (List.mem_cons_of_mem a hh)
    simp only [splitOnChar, ih hrest]
    simp [fun hh => hac hh]

theorem splitOnChar_append {c : Char} {a : Str} (t : Str) (h : c ∉ a) :
    splitOnChar c (a ++ c :: t) = a :: splitOnChar c t := by
  induction a with
  | nil =>
    simp only [List.nil_append, splitOnChar]
    cases hs : splitOnChar c t with
    | nil => exact absurd hs (splitOnChar_ne_nil c t)
    | cons g gs => simp
  | cons x xs ih =>
    have hxc : x ≠ c := fun hh => h (hh ▸ List.mem_cons_self x xs)
    have hxs : c ∉ xs := fun hh => h (List.mem_cons_of_mem x hh)
    show splitOnChar c (x :: (xs ++ c :: t)) = (x :: xs) :: splitOnChar c t
    simp only [splitOnChar]
    rw [ih hxs]
    simp [fun hh => hxc hh]

theorem trim_whitespace_cons {w : Char} (hw : w.isWhitespace = true) (s : Str) :
    trim (w :: s) = trim s := by
  simp [trim, List.dropWhile, hw]

theorem mem_dropWhile_of_not (p : Char → Bool) (l : Str) (a : Char)
    (hmem : a ∈ l) (hpa : p a = false) : a ∈ l.dropWhile p := by
  induction l with
  | nil => cases hmem
  | cons x xs ih =>
    rw [List.dropWhile_cons]
    rcases List.mem_cons.mp hmem with rfl | hm
    · rw [hpa]
      simp
    · cases hx : p x with
      | true => simpa using ih hm
      | false => simp [hm]

theorem trim_eq_nil_iff (s : Str) :
    trim s = [] ↔ ∀ ch ∈ s, ch.isWhitespace = true := by
  constructor
  · intro h ch hch
    by_contra hws
    have hws' : ch.isWhitespace = false := by
      cases hcw : ch.isWhitespace with
      | true => exact absurd hcw hws
      | false => rfl
    have h1 : ch ∈ s.dropWhile Char.isWhitespace :=
      mem_dropWhile_of_not _ _ _ hch hws'
    have h2 : ch ∈ (s.dropWhile Char.isWhitespace).reverse := List.mem_reverse.mpr h1
    have h3 : ch ∈ (s.dropWhile Char.isWhitespace).reverse.dropWhile Char.isWhitespace :=
      mem_dropWhile_of_not _ _ _ h2 hws'
    have h4 : ch ∈ trim s := List.mem_reverse.mpr h3
    rw [h] at h4
    cases h4
  · intro h
    have h1 : s.dropWhile Char.isWhitespace = [] := by
      rw [List.dropWhile_eq_nil_iff]
      intro x hx
      simpa using h x hx
    simp [trim, h1]

theorem splitOnChar_space_cons (t : Str) :
    (splitOnChar ',' (' ' :: t)).map trim = (splitOnChar ',' t).map trim := by
  cases hs : splitOnChar ',' t with
  | nil => exact absurd hs (splitOnChar_ne_nil _ _)
  | cons g gs =>
    have hstep : splitOnChar ',' (' ' :: t) = (' ' :: g) :: gs := by
      simp [splitOnChar, hs]
    rw [hstep, List.map_cons, List.map_cons,
      trim_whitespace_cons (by decide) g]

/-! ## Claim C10: the populateFields/getFormData skills round trip -/

/-- C10: for skills lists whose entries are non-empty, comma-free and already
trimmed, reading the form back (`getFormData`) after populating it
(`populateFields`) returns exactly the original list. -/
theorem getFormData_populateFields_skills_roundtrip (l : List Str)
    (h : ∀ x ∈ l, x ≠ [] ∧ ',' ∉ x ∧ trim x = x) :
    getFormDataSkills (populateFieldsSkillsValue l) = l := by
  induction l with
  | nil => rfl
  | cons x xs ih =>
    obtain ⟨hxne, hxcomma, hxtrim⟩ := h x (List.mem_cons_self x xs)
    cases xs with
    | nil =>
      show getFormDataSkills x = [x]
      unfold getFormDataSkills
      rw [splitOnChar_not_mem hxcomma, List.map_cons, List.map_nil, hxtrim]
      simp [hxne]
    | cons y ys =>
      have hrest : ∀ a ∈ y :: ys, a ≠ [] ∧ ',' ∉ a ∧ trim a = a :=
        fun a ha => h a (List.mem_cons_of_mem x ha)
      have ihr := ih hrest
      have hj : populateFieldsSkillsValue (x :: y :: ys)
          = x ++ ',' :: ' ' :: populateFieldsSkillsValue (y :: ys) := by
        show x ++ str ", " ++ jsJoin (str ", ") (y :: ys)
            = x ++ ',' :: ' ' :: jsJoin (str ", ") (y :: ys)
        rw [List.append_assoc]
        rfl
      rw [hj]
      unfold getFormDataSkills
      rw [splitOnChar_append _ hxcomma, List.map_cons, hxtrim,
        splitOnChar_space_cons, List.filter_cons_of_pos (by simp [hxne])]
      exact congrArg (x :: ·) ihr

/-- C10 witness: the round trip at the concrete list `["Python", "SQL"]`. -/
theorem getFormData_populateFields_skills_roundtrip_witness :
    getFormDataSkills (populateFieldsSkillsValue [str "Python", str "SQL"])
      = [str "Python", str "SQL"] :=
  getFormData_populateFields_skills_roundtrip [str "Python", str "SQL"] (by decide)

/-! ## Claim C4: skills read back from the form are not de-duplicated -/

/-- C4 counterexample: `getFormData` keeps the case-variant duplicate, so
`"Python, python, SQL"` does NOT yield `["Python", "SQL"]`. -/
theorem getFormDataSkills_no_dedup_counterexample :
    getFormDataSkills (str "Python, python, SQL")
        = [str "Python", str "python", str "SQL"] ∧
    getFormDataSkills (str "Python, python, SQL") ≠ [str "Python", str "SQL"] := by
  constructor
  · decide
  · decide

/-- C4 amended: the skills field read from the form is the ordered list of
trimmed comma-separated pieces with empty pieces removed, in first-seen
order, with no case-insensitive de-duplication. -/
theorem getFormDataSkills_amended (v : Str) :
    (∀ x ∈ getFormDataSkills v, x ≠ [] ∧ ∃ p ∈ splitOnChar ',' v, x = trim p) ∧
    (getFormDataSkills v).Sublist ((splitOnChar ',' v).map trim) := by
  constructor
  · intro x hx
    obtain ⟨hxmem, hxne⟩ := List.mem_filter.mp hx
    obtain ⟨p, hp, rfl⟩ := List.mem_map.mp hxmem
    refine ⟨by simpa using hxne, p, hp, rfl⟩
  · exact List.filter_sublist _

/-- C4 amended witness: at input `"Python, python, SQL"`, the element
`"Python"` of the result is non-empty and is the trim of a comma piece. -/
theorem getFormDataSkills_amended_witness :
    str "Python" ≠ [] ∧
    ∃ p ∈ splitOnChar ',' (str "Python, python, SQL"), str "Python" = trim p :=
  (getFormDataSkills_amended (str "Python, python, SQL")).1 (str "Python") (by decide)

/-! ## Claim C9: language fallback and template selection -/

/-- C9: a falsy `data.language` yields detected language `'en'` and the English
template; the Hungarian template is chosen exactly for `'hu'`; and a failed
Hungarian template fetch falls back to the English template. -/
theorem populateFields_language_template (lang : Option Str) (fetchOk : Str → Bool) :
    ((lang = none ∨ lang = some []) →
        populateFieldsLanguage lang = str "en" ∧
        templateFileFor (populateFieldsLanguage lang) = str "live_preview.html") ∧
    (∀ s : Str, templateFileFor s = str "live_preview_hu.html" ↔ s = str "hu") ∧
    (fetchOk (str "live_preview_hu.html") = false →
      fetchOk (str "live_preview.html") = true →
      fetchHtmlTemplateResult fetchOk (str "hu") = some (str "live_preview.html")) := by
  refine ⟨?_, ?_, ?_⟩
  · rintro (rfl | rfl)
    · exact ⟨rfl, by decide⟩
    · exact ⟨rfl, by decide⟩
  · intro s
    by_cases hs : s = str "hu"
    · simp [templateFileFor, hs]
    · have hne : str "live_preview.html" ≠ str "live_preview_hu.html" := by decide
      simp [templateFileFor, hs, hne]
  · intro hhu hen
    have h1 : templateFileFor (str "hu") = str "live_preview_hu.html" := by decide
    have h2 : templateFileFor (str "en") = str "live_preview.html" := by decide
    simp [fetchHtmlTemplateResult, h1, h2, hhu, hen]

/-- C9 witness: absent language gives `'en'`, and with a fetch that only
succeeds on the English file, the Hungarian request falls back to it. -/
theorem populateFields_language_template_witness :
    populateFieldsLanguage none = str "en" ∧
    fetchHtmlTemplateResult (fun s => s == str "live_preview.html") (str "hu")
      = some (str "live_preview.html") := by
  have h := populateFields_language_template none (fun s => s == str "live_preview.html")
  exact ⟨(h.1 (Or.inl rfl)).1, h.2.2 (by decide) (by decide)⟩

/-! ## Lemmas about groupSplit and the segmenter -/

theorem flatten_filter_ne_nil {α : Type} (gs : List (List α)) :
    (gs.filter (fun g => !g.isEmpty)).flatten = gs.flatten := by
  induction gs with
  | nil => rfl
  | cons g gs ih =>
    cases g with
    | nil => simpa using ih
    | cons a as =>
      simp only [List.filter_cons, List.isEmpty_cons, Bool.not_false, if_pos rfl]
      simp [ih]

theorem groupSplitCore_flatten {α : Type} (p : α → Bool) (xs : List α) :
    (groupSplitCore p xs).flatten = xs.filter (fun a => !p a) := by
  induction xs with
  | nil => rfl
  | cons a as ih =>
    simp only [groupSplitCore]
    cases hpa : p a with
    | true => simp [List.filter_cons, ih, hpa]
    | false =>
      cases hacc : groupSplitCore p as with
      | nil =>
        rw [hacc] at ih
        simp [List.filter_cons, hacc, hpa, ← ih]
      | cons g gs =>
        rw [hacc] at ih
        simp [List.filter_cons, hacc, hpa, ← ih]

theorem groupSplit_flatten {α : Type} (p : α → Bool) (xs : List α) :
    (groupSplit p xs).flatten = xs.filter (fun a => !p a) := by
  rw [groupSplit, flatten_filter_ne_nil, groupSplitCore_flatten]

theorem groupSplit_mem_ne_nil {α : Type} {p : α → Bool} {xs : List α} {g : List α}
    (hg : g ∈ groupSplit p xs) : g ≠ [] := by
  have := List.of_mem_filter hg
  simpa using this

theorem groupSplitCore_mem_not {α : Type} {p : α → Bool} :
    ∀ {xs g : List α}, g ∈ groupSplitCore p xs → ∀ a ∈ g, p a = false := by
  intro xs
  induction xs with
  | nil =>
    intro g hg
    cases hg
  | cons x xs ih =>
    intro g hg a ha
    revert hg
    simp only [groupSplitCore]
    cases hpx : p x with
    | true =>
      rw [if_pos rfl]
      intro hg
      rcases List.mem_cons.mp hg with rfl | hmem
      · cases ha
      · exact ih hmem a ha
    | false =>
      rw [if_neg (by simp)]
      cases hacc : groupSplitCore p xs with
      | nil =>
        intro hg
        rcases List.mem_cons.mp hg with rfl | hmem
        · rcases List.mem_cons.mp ha with rfl | h0
          · exact hpx
          · cases h0
        · cases hmem
      | cons g' gs' =>
        intro hg
        rcases List.mem_cons.mp hg with rfl | hmem
        · rcases List.mem_cons.mp ha with rfl | h0
          · exact hpx
          · exact ih (hacc ▸ List.mem_cons_self g' gs') a h0
        · exact ih (hacc ▸ List.mem_cons_of_mem g' hmem) a ha

theorem groupSplitCore_mem_subset {α : Type} {p : α → Bool} :
    ∀ {xs g : List α}, g ∈ groupSplitCore p xs → ∀ a ∈ g, a ∈ xs := by
  intro xs
  induction xs with
  | nil =>
    intro g hg
    cases hg
  | cons x xs ih =>
    intro g hg a ha
    revert hg
    simp only [groupSplitCore]
    cases hpx : p x with
    | true =>
      rw [if_pos rfl]
      intro hg
      rcases List.mem_cons.mp hg with rfl | hmem
      · cases ha
      · exact List.mem_cons_of_mem x (ih hmem a ha)
    | false =>
      rw [if_neg (by simp)]
      cases hacc : groupSplitCore p xs with
      | nil =>
        intro hg
        rcases List.mem_cons.mp hg with rfl | hmem
        · rcases List.mem_cons.mp ha with rfl | h0
          · exact List.mem_cons_self a xs
          · cases h0
        · cases hmem
      | cons g' gs' =>
        intro hg
        rcases List.mem_cons.mp hg with rfl | hmem
        · rcases List.mem_cons.mp ha with rfl | h0
          · exact List.mem_cons_self a xs
          · exact List.mem_cons_of_mem x
              (ih (hacc ▸ List.mem_cons_self g' gs') a h0)
        · exact List.mem_cons_of_mem x
            (ih (hacc ▸ List.mem_cons_of_mem g' hmem) a ha)

theorem splitOnChar_mem_not (c : Char) :
    ∀ (s : Str), ∀ g ∈ splitOnChar c s, c ∉ g := by
  intro s
  induction s with
  | nil =>
    intro g hg
    simp [splitOnChar] at hg
    simp [hg]
  | cons a rest ih =>
    intro g hg
    revert hg
    simp only [splitOnChar]
    cases hs : splitOnChar c rest with
    | nil => exact absurd hs (splitOnChar_ne_nil c rest)
    | cons g' gs' =>
      by_cases hac : a = c
      · simp only [if_pos hac]
        intro hg
        rcases List.mem_cons.mp hg with rfl | hmem
        · simp
        · exact ih g (hs ▸ hmem)
      · simp only [if_neg hac]
        intro hg
        rcases List.mem_cons.mp hg with rfl | hmem
        · intro hc
          rcases List.mem_cons.mp hc with rfl | hc'
          · exact hac rfl
          · exact ih g' (hs ▸ List.mem_cons_self g' gs') hc'
        · exact ih g (hs ▸ List.mem_cons_of_mem g' hmem)

theorem splitOnChar_joinLines :
    ∀ (p : List Str), p ≠ [] → (∀ l ∈ p, '\n' ∉ l) →
      splitOnChar '\n' (joinLines p) = p := by
  intro p
  induction p with
  | nil =>
    intro h
    cases h rfl
  | cons x xs ih =>
    intro _ hmem
    cases xs with
    | nil =>
      show splitOnChar '\n' x = [x]
      exact splitOnChar_not_mem (hmem x (List.mem_cons_self x []))
    | cons y ys =>
      have hx : '\n' ∉ x := hmem x (List.mem_cons_self x (y :: ys))
      have hrest : ∀ l ∈ y :: ys, '\n' ∉ l := fun l hl => hmem l (List.mem_cons_of_mem x hl)
      have hj : joinLines (x :: y :: ys) = x ++ '\n' :: joinLines (y :: ys) := by
        show x ++ ['\n'] ++ jsJoin ['\n'] (y :: ys) = _
        rw [List.append_assoc]
        rfl
      rw [hj, splitOnChar_append _ hx, ih (by simp) hrest]

theorem flatten_map_single {α : Type} (xs : List α) :
    (xs.map (fun a => [a])).flatten = xs := by
  induction xs with
  | nil => rfl
  | cons a as ih => simp [ih]

theorem isBlank_false_trim_ne {l : Str} (h : isBlank l = false) : trim l ≠ [] := by
  intro hnil
  rw [isBlank, hnil] at h
  cases h

theorem trim_ne_of_mem_nonblank {p : List Str} (hne : p ≠ [])
    (hnb : ∀ l ∈ p, isBlank l = false) : trim (joinLines p) ≠ [] := by
  cases p with
  | nil => cases hne rfl
  | cons l rest =>
    have hl : trim l ≠ [] := isBlank_false_trim_ne (hnb l (List.mem_cons_self l rest))
    have hch : ∃ ch ∈ l, ch.isWhitespace = false := by
      by_contra hall
      push_neg at hall
      exact hl ((trim_eq_nil_iff l).mpr (fun ch hc => by
        have := hall ch hc
        cases hcw : ch.isWhitespace with
        | true => rfl
        | false => exact absurd hcw this))
    obtain ⟨ch, hchmem, hchws⟩ := hch
    have hmem : ch ∈ joinLines (l :: rest) := by
      cases rest with
      | nil => exact hchmem
      | cons y ys =>
        show ch ∈ l ++ ['\n'] ++ jsJoin ['\n'] (y :: ys)
        exact List.mem_append_left _ (List.mem_append_left _ hchmem)
    intro htr
    have := (trim_eq_nil_iff _).mp htr ch hmem
    rw [hchws] at this
    cases this

theorem blocksOfPara_content (K : Nat) (p : List Str) (hne : p ≠ [])
    (hnb : ∀ l ∈ p, isBlank l = false) (hnl : ∀ l ∈ p, '\n' ∉ l) :
    ((blocksOfPara K p).map nonBlankLines).flatten = p ∧
    ∀ b ∈ blocksOfPara K p, trim b ≠ [] := by
  unfold blocksOfPara
  by_cases hK : K < (joinLines p).length
  · rw [if_pos hK]
    constructor
    · have hmap : p.map nonBlankLines = p.map (fun l => [l]) := by
        apply List.map_congr_left
        intro l hl
        rw [nonBlankLines, splitOnChar_not_mem (hnl l hl)]
        simp [hnb l hl]
      rw [hmap, flatten_map_single]
    · intro b hb
      exact isBlank_false_trim_ne (hnb b hb)
  · rw [if_neg hK]
    constructor
    · show nonBlankLines (joinLines p) ++ [].flatten = p
      rw [nonBlankLines, splitOnChar_joinLines p hne hnl]
      have : p.filter (fun l => !isBlank l) = p :=
        List.filter_eq_self.mpr (fun l hl => by simp [hnb l hl])
      simp [this]
    · intro b hb
      rcases List.mem_cons.mp hb with rfl | h0
      · exact trim_ne_of_mem_nonblank hne hnb
      · cases h0

/-! ## Claim C8: the segmenter preserves order and content -/

/-- C8: for every raw text and oversize threshold, the segmenter's blocks
preserve the document's non-blank lines in order and in full, every produced
block is non-empty after trimming, and the empty document yields the empty
block sequence. -/
theorem segment_order_content (K : Nat) (raw : Str) :
    ((segment K raw).map nonBlankLines).flatten
        = (splitOnChar '\n' raw).filter (fun l => !isBlank l) ∧
    (∀ b ∈ segment K raw, trim b ≠ []) ∧
    segment K [] = [] := by
  have hpara : ∀ p ∈ paragraphsOf (splitOnChar '\n' raw),
      p ≠ [] ∧ (∀ l ∈ p, isBlank l = false) ∧ (∀ l ∈ p, '\n' ∉ l) := by
    intro p hp
    have hcore : p ∈ groupSplitCore isBlank (splitOnChar '\n' raw) :=
      List.mem_of_mem_filter hp
    refine ⟨groupSplit_mem_ne_nil hp, groupSplitCore_mem_not hcore, ?_⟩
    intro l hl
    exact splitOnChar_mem_not '\n' raw l (groupSplitCore_mem_subset hcore l hl)
  have hblocks : ∀ b ∈ ((paragraphsOf (splitOnChar '\n' raw)).map (blocksOfPara K)).flatten,
      trim b ≠ [] := by
    intro b hb
    obtain ⟨bl, hbl, hbmem⟩ := List.mem_flatten.mp hb
    obtain ⟨p, hpmem, rfl⟩ := List.mem_map.mp hbl
    obtain ⟨h1, h2, h3⟩ := hpara p hpmem
    exact (blocksOfPara_content K p h1 h2 h3).2 b hbmem
  have hseg : segment K raw
      = ((paragraphsOf (splitOnChar '\n' raw)).map (blocksOfPara K)).flatten := by
    rw [segment]
    exact List.filter_eq_self.mpr (fun b hb => by simp [hblocks b hb])
  refine ⟨?_, ?_, rfl⟩
  · rw [hseg]
    have hjoin : ∀ (ps : List (List Str)),
        (∀ p ∈ ps, p ≠ [] ∧ (∀ l ∈ p, isBlank l = false) ∧ (∀ l ∈ p, '\n' ∉ l)) →
        (((ps.map (blocksOfPara K)).flatten.map nonBlankLines)).flatten = ps.flatten := by
      intro ps
      induction ps with
      | nil =>
        intro _
        rfl
      | cons p ps ih =>
        intro hps
        obtain ⟨h1, h2, h3⟩ := hps p (List.mem_cons_self p ps)
        have ihh := ih (fun q hq => hps q (List.mem_cons_of_mem p hq))
        simp only [List.map_cons, List.flatten_cons, List.map_append,
          List.flatten_append]
        rw [(blocksOfPara_content K p h1 h2 h3).1, ihh]
    rw [hjoin _ hpara]
    have := groupSplit_flatten isBlank (splitOnChar '\n' raw)
    exact this
  · rw [hseg]
    exact hblocks

/-- C8 witness: a concrete one-line document - its block is kept and is
non-empty after trimming. -/
theorem segment_order_content_witness :
    str "name" ∈ segment 400 (str "name") ∧ trim (str "name") ≠ [] :=
  ⟨by decide, (segment_order_content 400 (str "name")).2.1 (str "name") (by decide)⟩

/-! ## Lemmas about the grouper -/

theorem chunkRuns_cons₂ (a b : LBlock) (rest : List LBlock) {g : List LBlock}
    {gs : List (List LBlock)} (hc : chunkRuns (b :: rest) = g :: gs) :
    chunkRuns (a :: b :: rest)
      = if a.label = b.label then (a :: g) :: gs else [a] :: g :: gs := by
  simp only [chunkRuns]
  rw [hc]

theorem chunkRuns_cons_ne_nil (c : LBlock) (l : List LBlock) :
    chunkRuns (c :: l) ≠ [] := by
  cases l with
  | nil => simp [chunkRuns]
  | cons d l2 =>
    simp only [chunkRuns]
    cases hc : chunkRuns (d :: l2) with
    | nil => simp
    | cons g gs => by_cases h : c.label = d.label <;> simp [h]

theorem chunkRuns_flatten : ∀ (bs : List LBlock), (chunkRuns bs).flatten = bs := by
  intro bs
  induction bs with
  | nil => rfl
  | cons a rest ih =>
    cases rest with
    | nil => rfl
    | cons b rest2 =>
      cases hc : chunkRuns (b :: rest2) with
      | nil => exact absurd hc (chunkRuns_cons_ne_nil b rest2)
      | cons g gs =>
        rw [hc] at ih
        simp only [List.flatten_cons] at ih
        rw [chunkRuns_cons₂ a b rest2 hc]
        by_cases hl : a.label = b.label
        · rw [if_pos hl]
          simp [ih]
        · rw [if_neg hl]
          simp [ih]

theorem chunkRuns_mem_ne_nil :
    ∀ (bs : List LBlock), ∀ g ∈ chunkRuns bs, g ≠ [] := by
  intro bs
  induction bs with
  | nil =>
    intro g hg
    cases hg
  | cons a rest ih =>
    cases rest with
    | nil =>
      intro g hg
      rcases List.mem_cons.mp hg with rfl | h0
      · simp
      · cases h0
    | cons b rest2 =>
      intro g hg
      cases hc : chunkRuns (b :: rest2) with
      | nil => exact absurd hc (chunkRuns_cons_ne_nil b rest2)
      | cons g' gs' =>
        rw [chunkRuns_cons₂ a b rest2 hc] at hg
        by_cases hl : a.label = b.label
        · rw [if_pos hl] at hg
          rcases List.mem_cons.mp hg with rfl | hmem
          · simp
          · exact ih g (hc ▸ List.mem_cons_of_mem g' hmem)
        · rw [if_neg hl] at hg
          rcases List.mem_cons.mp hg with rfl | hmem
          · simp
          · exact ih g (hc ▸ hmem)

theorem smoothRun_left_none (thr : ℚ) (r : Option Label) (g : List LBlock) :
    smoothRun thr none r g = g := by
  cases g with
  | nil => rfl
  | cons b t =>
    cases t with
    | nil => cases r <;> simp [smoothRun]
    | cons c t2 => rfl

theorem smoothRun_right_none (thr : ℚ) (l : Option Label) (g : List LBlock) :
    smoothRun thr l none g = g := by
  cases g with
  | nil => rfl
  | cons b t =>
    cases t with
    | nil => cases l <;> simp [smoothRun]
    | cons c t2 => rfl

theorem smoothRun_agree (thr : ℚ) (L : Label) (b : LBlock) (h : b.conf < thr) :
    smoothRun thr (some L) (some L) [b] = [relabel L b] := by
  simp [smoothRun, h]

theorem smoothRun_disagree (thr : ℚ) (L R : Label) (b : LBlock) (h : L ≠ R) :
    smoothRun thr (some L) (some R) [b] = [b] := by
  by_cases hc : b.conf < thr <;> simp [smoothRun, hc, h]

theorem smoothRun_content (thr : ℚ) (l r : Option Label) (g : List LBlock) :
    (smoothRun thr l r g).map blockContent = g.map blockContent := by
  cases g with
  | nil => rfl
  | cons b t =>
    cases t with
    | nil =>
      cases l with
      | none => rw [smoothRun_left_none]
      | some L =>
        cases r with
        | none => rw [smoothRun_right_none]
        | some R =>
          by_cases hc : b.conf < thr
          · by_cases hLR : L = R
            · subst hLR
              rw [smoothRun_agree thr L b hc]
              simp [relabel, blockContent]
            · rw [smoothRun_disagree thr L R b hLR]
          · simp [smoothRun, hc]
    | cons c t2 => rfl

theorem smoothRuns_content (thr : ℚ) :
    ∀ (gs : List (List LBlock)) (left : Option Label),
      ((smoothRuns thr left gs).flatten).map blockContent
        = (gs.flatten).map blockContent := by
  intro gs
  induction gs with
  | nil =>
    intro left
    rfl
  | cons g gs ih =>
    intro left
    simp only [smoothRuns, List.flatten_cons, List.map_append]
    rw [smoothRun_content, ih]

theorem runLabel_const {L : Label} {g : List LBlock} (hne : g ≠ [])
    (hlab : ∀ a ∈ g, a.label = L) : runLabel g = some L := by
  cases g with
  | nil => cases hne rfl
  | cons b t =>
    show some b.label = some L
    rw [hlab b (List.mem_cons_self b t)]

theorem chunkRuns_const {L : Label} :
    ∀ (g : List LBlock), g ≠ [] → (∀ b ∈ g, b.label = L) → chunkRuns g = [g] := by
  intro g
  induction g with
  | nil =>
    intro h
    cases h rfl
  | cons a t ih =>
    intro _ hlab
    cases t with
    | nil => rfl
    | cons b t2 =>
      have hrec : chunkRuns (b :: t2) = (b :: t2) :: [] :=
        ih (by simp) (fun x hx => hlab x (List.mem_cons_of_mem a hx))
      rw [chunkRuns_cons₂ a b t2 hrec,
        if_pos (by
          rw [hlab a (List.mem_cons_self a (b :: t2)),
            hlab b (List.mem_cons_of_mem a (List.mem_cons_self b t2))])]

theorem chunkRuns_const_append {L : Label} :
    ∀ (A : List LBlock), A ≠ [] → (∀ a ∈ A, a.label = L) →
      ∀ (b : LBlock) (B : List LBlock), b.label ≠ L →
        chunkRuns (A ++ b :: B) = A :: chunkRuns (b :: B) := by
  intro A
  induction A with
  | nil =>
    intro h
    cases h rfl
  | cons x xs ih =>
    intro _ hlab b B hbne
    cases xs with
    | nil =>
      show chunkRuns (x :: b :: B) = [x] :: chunkRuns (b :: B)
      cases hc : chunkRuns (b :: B) with
      | nil => exact absurd hc (chunkRuns_cons_ne_nil b B)
      | cons g gs =>
        have hxb : x.label ≠ b.label := by
          rw [hlab x (List.mem_cons_self x [])]
          exact fun hh => hbne hh.symm
        rw [chunkRuns_cons₂ x b B hc, if_neg hxb]
    | cons y ys =>
      have hxl : x.label = L := hlab x (List.mem_cons_self x (y :: ys))
      have hyl : y.label = L :=
        hlab y (List.mem_cons_of_mem x (List.mem_cons_self y ys))
      have ihr := ih (by simp) (fun a ha => hlab a (List.mem_cons_of_mem x ha)) b B hbne
      have hc : chunkRuns (y :: (ys ++ b :: B)) = (y :: ys) :: chunkRuns (b :: B) := ihr
      show chunkRuns (x :: y :: (ys ++ b :: B)) = (x :: y :: ys) :: chunkRuns (b :: B)
      rw [chunkRuns_cons₂ x y (ys ++ b :: B) hc, if_pos (by rw [hxl, hyl])]

theorem range'_getLast (k m : Nat) :
    (List.range' k (m+1)).getLast? = some (k + m) := by
  induction m generalizing k with
  | zero => rfl
  | succ m ih =>
    have h1 : List.range' k (m+1+1) = k :: List.range' (k+1) (m+1) :=
      List.range'_succ k (m+1) 1
    have h2 : List.range' (k+1) (m+1) = (k+1) :: List.range' (k+1+1) m :=
      List.range'_succ (k+1) m 1
    rw [h1, h2, List.getLast?_cons_cons, ← h2, ih]
    exact congrArg some (by omega)

theorem range'_split {A B : List LBlock} {k : Nat}
    (h : (A ++ B).map LBlock.index = List.range' k (A ++ B).length) :
    A.map LBlock.index = List.range' k A.length ∧
    B.map LBlock.index = List.range' (k + A.length) B.length := by
  have hr : List.range' k (A.length + B.length)
      = List.range' k A.length ++ List.range' (k + A.length) B.length := by
    have hx := List.range'_append k A.length B.length 1
    simp only [Nat.one_mul] at hx
    rw [Nat.add_comm B.length A.length] at hx
    exact hx.symm
  have h1 : A.map LBlock.index ++ B.map LBlock.index
      = List.range' k A.length ++ List.range' (k + A.length) B.length := by
    calc A.map LBlock.index ++ B.map LBlock.index
        = (A ++ B).map LBlock.index := by rw [List.map_append]
      _ = List.range' k (A ++ B).length := h
      _ = List.range' k (A.length + B.length) := by rw [List.length_append]
      _ = _ := hr
  exact List.append_inj h1 (by simp)

theorem mkSpan_start (g : List LBlock) (k : Nat) (hne : g ≠ [])
    (hg : g.map LBlock.index = List.range' k g.length) :
    (mkSpan g).start_index = k := by
  cases g with
  | nil => cases hne rfl
  | cons b t =>
    have hb : b.index = k := by
      have h0 := congrArg List.head? hg
      simpa [List.range'_succ k t.length 1] using h0
    show (mkSpan (b :: t)).start_index = k
    simp [mkSpan, hb]

theorem mkSpan_end (g : List LBlock) (k : Nat) (hne : g ≠ [])
    (hg : g.map LBlock.index = List.range' k g.length) :
    (mkSpan g).end_index + 1 = k + g.length := by
  obtain ⟨m, hm⟩ : ∃ m, g.length = m + 1 :=
    ⟨g.length - 1, by have := List.length_pos.mpr hne; omega⟩
  have hL : (g.map LBlock.index).getLast? = some (k + m) := by
    rw [hg, hm, range'_getLast]
  rw [List.getLast?_map] at hL
  cases hgl : g.getLast? with
  | none =>
    rw [hgl] at hL
    cases hL
  | some b =>
    rw [hgl] at hL
    have hb : b.index = k + m := by
      injection hL
    have he : (mkSpan g).end_index = b.index := by
      simp [mkSpan, hgl]
    rw [he, hb, hm]
    omega

theorem chain_of_range' :
    ∀ (gs : List (List LBlock)) (k : Nat),
      (∀ g ∈ gs, g ≠ []) →
      gs.flatten.map LBlock.index = List.range' k gs.flatten.length →
      List.Chain' (fun a b => (mkSpan a).end_index + 1 = (mkSpan b).start_index ∧
        (mkSpan a).start_index < (mkSpan b).start_index) gs := by
  intro gs
  induction gs with
  | nil =>
    intro k _ _
    exact List.chain'_nil
  | cons g gs ih =>
    intro k hne hidx
    have hsplit := range'_split (A := g) (B := gs.flatten) (k := k) (by
      simpa [List.flatten_cons] using hidx)
    obtain ⟨hg, hrest⟩ := hsplit
    cases gs with
    | nil => exact List.chain'_singleton _
    | cons g2 gs2 =>
      have hne2 : g2 ≠ [] :=
        hne g2 (List.mem_cons_of_mem g (List.mem_cons_self g2 gs2))
      have hsplit2 := range'_split (A := g2) (B := gs2.flatten) (k := k + g.length) (by
        simpa [List.flatten_cons] using hrest)
      refine List.chain'_cons.mpr ⟨⟨?_, ?_⟩,
        ih (k + g.length) (fun q hq => hne q (List.mem_cons_of_mem g hq)) hrest⟩
      · rw [mkSpan_end g k (hne g (List.mem_cons_self g _)) hg,
          mkSpan_start g2 (k + g.length) hne2 hsplit2.1]
      · rw [mkSpan_start g k (hne g (List.mem_cons_self g _)) hg,
          mkSpan_start g2 (k + g.length) hne2 hsplit2.1]
        have := List.length_pos.mpr (hne g (List.mem_cons_self g _))
        omega

theorem content_map_index {A B : List LBlock}
    (h : A.map blockContent = B.map blockContent) :
    A.map LBlock.index = B.map LBlock.index ∧ A.length = B.length := by
  constructor
  · have hx : (A.map blockContent).map Prod.fst = (B.map blockContent).map Prod.fst := by
      rw [h]
    have hfi : Prod.fst ∘ blockContent = LBlock.index := funext fun b => rfl
    rw [List.map_map, List.map_map, hfi] at hx
    exact hx
  · have := congrArg List.length h
    simpa using this

theorem group_blocks_content (thr : ℚ) (bs : List LBlock) :
    ((group thr bs).map SectionSpan.blocks).flatten.map blockContent
      = bs.map blockContent := by
  unfold group
  rw [List.map_map]
  have hbm : (SectionSpan.blocks ∘ mkSpan) = id := funext fun g => rfl
  rw [hbm, List.map_id, chunkRuns_flatten, smoothRuns_content, chunkRuns_flatten]

/-! ## Claim C1: the grouper's spans partition the block sequence -/

/-- C1: for blocks indexed 0..n-1 in document order, the grouper's spans
cover every block exactly once in order (only labels are reassigned, never
content or position), every span is nonempty, consecutive spans are contiguous
with no gap and no overlap, and spans are ordered by `start_index`. -/
theorem group_partitions (thr : ℚ) (bs : List LBlock)
    (hidx : bs.map LBlock.index = List.range bs.length) :
    ((group thr bs).map SectionSpan.blocks).flatten.map blockContent
        = bs.map blockContent ∧
    (∀ sp ∈ group thr bs, sp.blocks ≠ []) ∧
    List.Chain' (fun a b => a.end_index + 1 = b.start_index) (group thr bs) ∧
    List.Chain' (fun a b => a.start_index < b.start_index) (group thr bs) := by
  have hcontent := group_blocks_content thr bs
  have hXcontent : ((smoothRuns thr none (chunkRuns bs)).flatten).map blockContent
      = bs.map blockContent := by
    rw [smoothRuns_content, chunkRuns_flatten]
  obtain ⟨hXidx, hXlen⟩ := content_map_index hXcontent
  have hXr : (smoothRuns thr none (chunkRuns bs)).flatten.map LBlock.index
      = List.range' 0 ((smoothRuns thr none (chunkRuns bs)).flatten.length) := by
    rw [hXidx, hXlen, hidx, List.range_eq_range']
  have hchain := chain_of_range' (chunkRuns ((smoothRuns thr none (chunkRuns bs)).flatten)) 0
    (chunkRuns_mem_ne_nil _)
    (by rw [chunkRuns_flatten]; exact hXr)
  refine ⟨hcontent, ?_, ?_, ?_⟩
  · intro sp hsp
    obtain ⟨g, hg, rfl⟩ := List.mem_map.mp hsp
    exact chunkRuns_mem_ne_nil _ g hg
  · exact (List.chain'_map mkSpan).mpr (hchain.imp (fun a b hh => hh.1))
  · exact (List.chain'_map mkSpan).mpr (hchain.imp (fun a b hh => hh.2))

/-- C1 witness: a concrete three-block document with indices 0,1,2. -/
theorem group_partitions_witness :
    ([eduBlock 0, skillsBlock02, expBlock 2].map LBlock.index
        = List.range [eduBlock 0, skillsBlock02, expBlock 2].length) ∧
    ∀ sp ∈ group (1/2) [eduBlock 0, skillsBlock02, expBlock 2], sp.blocks ≠ [] :=
  ⟨by decide, (group_partitions (1/2) [eduBlock 0, skillsBlock02, expBlock 2]
    (by decide)).2.1⟩

/-! ## Claims C2 and C3: noise smoothing and its tie-break -/

/-- C2: a single block of confidence below the threshold whose left and right
neighbor runs agree on a label is reassigned to that label, and the result
merges into one span covering all the blocks. -/
theorem group_merges_agreeing_noise (thr : ℚ) (L : Label) (b : LBlock)
    (xs ys : List LBlock) (hxs : xs ≠ []) (hys : ys ≠ [])
    (hxl : ∀ a ∈ xs, a.label = L) (hyl : ∀ a ∈ ys, a.label = L)
    (hbl : b.label ≠ L) (hconf : b.conf < thr) :
    group thr (xs ++ b :: ys) = [mkSpan (xs ++ relabel L b :: ys)] ∧
    (mkSpan (xs ++ relabel L b :: ys)).label = L ∧
    (mkSpan (xs ++ relabel L b :: ys)).blocks.length = xs.length + 1 + ys.length := by
  have hbys : chunkRuns (b :: ys) = [b] :: chunkRuns ys := by
    cases ys with
    | nil => cases hys rfl
    | cons y ys' =>
      exact chunkRuns_const_append (L := b.label) [b] (by simp) (by simp) y ys' (by
        rw [hyl y (List.mem_cons_self y ys')]
        exact fun hh => hbl hh.symm)
  have h1 : chunkRuns (xs ++ b :: ys) = [xs, [b], ys] := by
    rw [chunkRuns_const_append xs hxs hxl b ys hbl, hbys, chunkRuns_const ys hys hyl]
  have hrL : runLabel xs = some L := runLabel_const hxs hxl
  have hrR : runLabel ys = some L := runLabel_const hys hyl
  have h2 : smoothRuns thr none [xs, [b], ys] = [xs, [relabel L b], ys] := by
    simp only [smoothRuns, headRunLabel]
    rw [show runLabel [b] = some b.label from rfl, hrL, hrR, smoothRun_left_none,
      smoothRun_right_none, smoothRun_agree thr L b hconf]
  have hall : ∀ a ∈ xs ++ relabel L b :: ys, a.label = L := by
    intro a ha
    rcases List.mem_append.mp ha with h | h
    · exact hxl a h
    · rcases List.mem_cons.mp h with rfl | h'
      · simp [relabel]
      · exact hyl a h'
  have h4 : chunkRuns (xs ++ relabel L b :: ys) = [xs ++ relabel L b :: ys] :=
    chunkRuns_const _ (by simp) hall
  refine ⟨?_, ?_, ?_⟩
  · show (chunkRuns ((smoothRuns thr none (chunkRuns (xs ++ b :: ys))).flatten)).map mkSpan
        = [mkSpan (xs ++ relabel L b :: ys)]
    rw [h1, h2]
    have h3 : ([xs, [relabel L b], ys] : List (List LBlock)).flatten
        = xs ++ relabel L b :: ys := by simp
    rw [h3, h4, List.map_cons, List.map_nil]
  · cases xs with
    | nil => cases hxs rfl
    | cons x t =>
      show (mkSpan (x :: (t ++ relabel L b :: ys))).label = L
      simp [mkSpan, hxl x (List.mem_cons_self x t)]
  · simp [mkSpan]
    omega

/-- C2 witness: the sequence EDUCATION, EDUCATION, SKILLS(conf 0.3), EDUCATION
yields one merged EDUCATION span of length 4. -/
theorem group_merges_agreeing_noise_witness :
    skillsBlock03.conf < (1 : ℚ)/2 ∧
    group (1/2) [eduBlock 0, eduBlock 1, skillsBlock03, eduBlock 3]
      = [mkSpan [eduBlock 0, eduBlock 1, relabel Label.education skillsBlock03,
          eduBlock 3]] := by
  have h := group_merges_agreeing_noise (1/2) Label.education skillsBlock03
    [eduBlock 0, eduBlock 1] [eduBlock 3] (by simp) (by simp) (by decide) (by decide)
    (by decide) (by norm_num [skillsBlock03])
  exact ⟨by norm_num [skillsBlock03], h.1⟩

/-- C3: a single low-confidence block whose neighbor runs disagree keeps its
original label, producing three separate spans. -/
theorem group_keeps_disagreeing_noise (thr : ℚ) (L R : Label) (b : LBlock)
    (xs ys : List LBlock) (hxs : xs ≠ []) (hys : ys ≠ [])
    (hxl : ∀ a ∈ xs, a.label = L) (hyl : ∀ a ∈ ys, a.label = R)
    (hbL : b.label ≠ L) (hbR : b.label ≠ R) (hLR : L ≠ R) (_hconf : b.conf < thr) :
    group thr (xs ++ b :: ys) = [mkSpan xs, mkSpan [b], mkSpan ys] ∧
    (mkSpan [b]).label = b.label := by
  have hbys : chunkRuns (b :: ys) = [b] :: chunkRuns ys := by
    cases ys with
    | nil => cases hys rfl
    | cons y ys' =>
      exact chunkRuns_const_append (L := b.label) [b] (by simp) (by simp) y ys' (by
        rw [hyl y (List.mem_cons_self y ys')]
        exact fun hh => hbR hh.symm)
  have h1 : chunkRuns (xs ++ b :: ys) = [xs, [b], ys] := by
    rw [chunkRuns_const_append xs hxs hxl b ys hbL, hbys, chunkRuns_const ys hys hyl]
  have hrL : runLabel xs = some L := runLabel_const hxs hxl
  have hrR : runLabel ys = some R := runLabel_const hys hyl
  have h2 : smoothRuns thr none [xs, [b], ys] = [xs, [b], ys] := by
    simp only [smoothRuns, headRunLabel]
    rw [show runLabel [b] = some b.label from rfl, hrL, hrR, smoothRun_left_none,
      smoothRun_right_none, smoothRun_disagree thr L R b hLR]
  refine ⟨?_, by simp [mkSpan]⟩
  show (chunkRuns ((smoothRuns thr none (chunkRuns (xs ++ b :: ys))).flatten)).map mkSpan
      = [mkSpan xs, mkSpan [b], mkSpan ys]
  rw [h1, h2]
  have h3 : ([xs, [b], ys] : List (List LBlock)).flatten = xs ++ b :: ys := by simp
  rw [h3, h1]
  rfl

/-- C3 witness: EDUCATION, SKILLS(conf 0.2), EXPERIENCE yields three spans
with the middle block still labeled SKILLS. -/
theorem group_keeps_disagreeing_noise_witness :
    skillsBlock02.conf < (1 : ℚ)/2 ∧
    group (1/2) [eduBlock 0, skillsBlock02, expBlock 2]
      = [mkSpan [eduBlock 0], mkSpan [skillsBlock02], mkSpan [expBlock 2]] ∧
    (mkSpan [skillsBlock02]).label = Label.skills := by
  have h := group_keeps_disagreeing_noise (1/2) Label.education Label.experience
    skillsBlock02 [eduBlock 0] [expBlock 2] (by simp) (by simp) (by decide) (by decide)
    (by decide) (by decide) (by decide) (by norm_num [skillsBlock02])
  exact ⟨by norm_num [skillsBlock02], h.1, by decide⟩

/-! ## Claim C5: purity of the pipeline -/

/-- C5: the pipeline is a pure function of (raw text, language).  Batch
processing carries no state between documents: a document's record does not
depend on what was processed before it, and processing the same input twice
yields identical records. -/
theorem pipeline_pure_stateless (cls : Classifier) (docs : List (Str × DocLang))
    (t : Str) (lang : DocLang) :
    processAll cls (docs ++ [(t, lang)])
        = processAll cls docs ++ [runPipeline cls t lang] ∧
    processAll cls [(t, lang), (t, lang)]
        = [runPipeline cls t lang, runPipeline cls t lang] := by
  constructor
  · induction docs with
    | nil => rfl
    | cons d ds ih => simpa [processAll] using ih
  · rfl

/-! ## Claim C6: extraction never raises -/

/-- C6: with a loaded classifier the pipeline returns a record on every input
(its error channel is reserved for the missing-model startup failure), and a
field that cannot be parsed is returned empty or omitted. -/
theorem extraction_never_raises (model : Option Classifier) (cls : Classifier)
    (raw t s : Str) (lang : DocLang) (hm : model = some cls) :
    (∃ r, loadedPipelineE model raw lang = Except.ok r) ∧
    (findEmail t = none → (extractProfile t).email = []) ∧
    (findPhone t = none → (extractProfile t).phone = []) ∧
    (findUrl t = none → (extractProfile t).url = []) ∧
    (nerName t = none → (extractProfile t).name = []) ∧
    (nerLocation t = none → (extractProfile t).location = []) ∧
    ((∀ piece ∈ (groupSplit (fun c => decide (c = ',' ∨ c = '\n')) s).map trim,
        parseLangPiece piece = none) → extractLanguages s = []) := by
  subst hm
  refine ⟨⟨_, rfl⟩, ?_, ?_, ?_, ?_, ?_, ?_⟩
  · intro h
    simp [extractProfile, h]
  · intro h
    simp [extractProfile, h]
  · intro h
    simp [extractProfile, h]
  · intro h
    simp [extractProfile, h]
  · intro h
    simp [extractProfile, h]
  · intro h
    unfold extractLanguages
    rw [List.filterMap_eq_nil_iff]
    exact h

/-- C6 witness: concrete malformed inputs - the pipeline returns a record, a
span without an email yields an empty email, and a languages span with no
parseable piece yields no entries. -/
theorem extraction_never_raises_witness :
    (∃ r, loadedPipelineE (some constClassifier) (str "x") DocLang.en = Except.ok r) ∧
    (extractProfile (str "????")).email = [] ∧
    extractLanguages (str "asdf qwer") = [] := by
  have h := extraction_never_raises (some constClassifier) constClassifier (str "x")
    (str "????") (str "asdf qwer") DocLang.en rfl
  exact ⟨h.1, h.2.1 (by decide), h.2.2.2.2.2.2 (by decide)⟩

/-! ## Claim C7: the empty document -/

/-- C7: empty raw text is not an error - the pipeline succeeds and returns a
Canonical Record whose profile scalars are all empty and whose list fields
are all empty. -/
theorem emptyInput_emptyRecord (cls : Classifier) (lang : DocLang) :
    (∃ r, loadedPipelineE (some cls) [] lang = Except.ok r) ∧
    (runPipeline cls [] lang).profile.name = [] ∧
    (runPipeline cls [] lang).profile.email = [] ∧
    (runPipeline cls [] lang).profile.phone = [] ∧
    (runPipeline cls [] lang).profile.location = [] ∧
    (runPipeline cls [] lang).profile.url = [] ∧
    (runPipeline cls [] lang).profile.summary = [] ∧
    (runPipeline cls [] lang).current_position = [] ∧
    (runPipeline cls [] lang).skills = [] ∧
    (runPipeline cls [] lang).education = [] ∧
    (runPipeline cls [] lang).experience = [] ∧
    (runPipeline cls [] lang).languages = [] ∧
    (runPipeline cls [] lang).detected_language = lang :=
  ⟨⟨_, rfl⟩, rfl, rfl, rfl, rfl, rfl, rfl, rfl, rfl, rfl, rfl, rfl, rfl⟩

end Wozify
